import Mathlib

/-!
Shallow embedding of the Scoring & Position-Management Engine of
`bot.py` (politician-trading-bot): transaction normalization
(`fetch_congress_trades`), scoring (`score_trades`), the buy engine
(`execute_trades`) and the trailing-stop sell engine
(`trailing_stop_and_sell`), with theorems settling the specification
claims about them.

Modelling conventions:
* pandas DataFrames become a `Frame`: per-column presence flags plus a
  list of rows; a cell that is NaN after `pd.to_numeric(errors="coerce")`
  is `Option.none`, and `fillna(0)` is `Option.getD 0`.
* prices and fractions are `ℚ`; timestamps are `Int` seconds.
* `df.sort_values(by, ascending=False)` is modelled after pandas
  `nargsort`: an ascending argsort followed by reversing the indexer.
  The ascending argsort is modelled as a stable sort (numpy introsort
  runs a stable insertion sort on segments shorter than 16, so the model
  is exact on small inputs); the reversal of the indexer is what makes the
  descending sort put equal keys in reversed input order.
* Python `sorted` (Timsort) is a stable sort, modelled by
  `List.insertionSort`.
* a Python statement that can raise an uncaught exception is modelled in
  `Option`/`Except`, with `none`/`.error` the raising outcome.
-/

/-- Row of the congress-trading DataFrame as used by `score_trades` and
`execute_trades`: the `Ticker` and `Transaction` cells plus the two
optional numeric cells.  A `none` numeric cell is a value that
`pd.to_numeric(errors="coerce")` turns into NaN (missing or malformed). -/
structure Row where
  ticker : String
  transaction : String
  trade_size : Option ℚ
  excess_return : Option ℚ
deriving DecidableEq

/-- DataFrame for the scoring stage: which optional columns the feed
schema carries, plus the rows in feed order.  `score_trades` tests
`"Trade_Size_USD" in df.columns` and `"excess_return" in df.columns`,
so column presence is data. -/
structure Frame where
  hasTradeSize : Bool
  hasExcessReturn : Bool
  rows : List Row
deriving DecidableEq

/-- Trade-size tier of `score_trades`:
`np.where(size >= 100000, 3, np.where(size >= 25000, 2, 1))`. -/
def sizeTier (s : ℚ) : Int :=
  if 100000 ≤ s then 3 else if 25000 ≤ s then 2 else 1

/-- Direction contribution of `score_trades`:
`2 if str(x).upper() == "BUY" else (-2 if str(x).upper() == "SELL" else 0)`. -/
def dirScore (t : String) : Int :=
  if t.toUpper = "BUY" then 2 else if t.toUpper = "SELL" then -2 else 0

/-- Excess-return tier of `score_trades`:
`np.where(er > 0.05, 2, np.where(er > 0, 1, 0))`. -/
def erTier (e : ℚ) : Int :=
  if 5/100 < e then 2 else if 0 < e then 1 else 0

/-- Score of one row in `score_trades`: the trade-size tier when the
`Trade_Size_USD` column is present (its NaN cells filled with 0), plus
the direction contribution, plus the excess-return tier when the
`excess_return` column is present (NaN filled with 0), plus the flat
`+1` activity bonus. -/
def rowScore (hTS hER : Bool) (r : Row) : Int :=
  (if hTS then sizeTier (r.trade_size.getD 0) else 0)
    + dirScore r.transaction
    + (if hER then erTier (r.excess_return.getD 0) else 0)
    + 1

/-- Ascending-by-score comparison used to model the argsort inside
`df.sort_values(by="score", ascending=False)`. -/
def scoreLE (a b : Row × Int) : Prop := a.2 ≤ b.2

instance : DecidableRel scoreLE :=
  fun a b => inferInstanceAs (Decidable (a.2 ≤ b.2))

instance : IsTotal (Row × Int) scoreLE :=
  ⟨fun a b => Int.le_total a.2 b.2⟩

instance : IsTrans (Row × Int) scoreLE :=
  ⟨fun _ _ _ => Int.le_trans⟩

/-- Model of `score_trades`: annotate every row with its score, then
`sort_values(by="score", ascending=False)`, i.e. a stable ascending sort
followed by reversing (pandas `nargsort` reverses the ascending argsort
for descending sorts). -/
def score_trades (f : Frame) : List (Row × Int) :=
  (List.insertionSort scoreLE
    (f.rows.map (fun r => (r, rowScore f.hasTradeSize f.hasExcessReturn r)))).reverse

/-- Raw feed record as consumed by `fetch_congress_trades`.  `traded` is
the result of `pd.to_datetime(df["Traded"], errors="coerce")` on the
`Traded` cell, as a UTC timestamp in seconds: `none` is NaT (the date
failed to parse).  The remaining fields are carried through untouched. -/
structure RawRec where
  ticker : String
  transaction : String
  traded : Option Int
  trade_size : Option ℚ
  excess_return : Option ℚ
deriving DecidableEq

/-- Raw feed response for the normalizer: which date column the feed
schema carries (`Traded`-keyed versus `Date`-keyed), plus the records in
feed order.  `fetch_congress_trades` only ever reads the `Traded`
column; `hasDate` records the alternate schema shape and is ignored by
the code. -/
structure Feed where
  hasTraded : Bool
  hasDate : Bool
  recs : List RawRec
deriving DecidableEq

/-- Seconds in 30 days, the `dt.timedelta(days=30)` of the cutoff. -/
def thirtyDays : Int := 30 * 86400

/-- Model of `fetch_congress_trades` given `now = dt.datetime.utcnow()`
in seconds.  If the `Traded` column is absent the function raises
`KeyError` (modelled as `.error`).  Otherwise rows whose `Traded` cell
failed to parse are dropped (`dropna` after `errors="coerce"`), and the
remaining rows are filtered to `TransactionDate >= now - 30 days`,
preserving feed order. -/
def fetch_congress_trades (now : Int) (f : Feed) : Except String (List RawRec) :=
  if f.hasTraded then
    Except.ok (f.recs.filter (fun r =>
      match r.traded with
      | none => false
      | some d => decide (now - thirtyDays ≤ d)))
  else
    Except.error "KeyError: expected column Traded not found"

/-- Buy instruction submitted by `execute_trades`: the symbol and the
computed share quantity. -/
structure Buy where
  symbol : String
  qty : Int
deriving DecidableEq

/-- Loop body of `execute_trades` over the score-filtered rows.
`price` is the external latest-trade collaborator: `none` models both an
exception from `get_latest_trade` (caught per candidate) and a falsy
price.  A candidate is skipped when its ticker is the empty string
(`if not symbol`), when the symbol is in the already-held set, or when
no positive price is available; otherwise a market buy of
`max(1, int(BUDGET // price))` shares is submitted.  The held set is
never updated inside the loop. -/
def execGo (existing : List String) (price : String → Option ℚ) :
    List (Row × Int) → List Buy
  | [] => []
  | (r, _) :: rest =>
    if r.ticker = "" then execGo existing price rest
    else if r.ticker ∈ existing then execGo existing price rest
    else
      match price r.ticker with
      | none => execGo existing price rest
      | some p =>
        if p ≤ 0 then execGo existing price rest
        else ⟨r.ticker, max 1 ⌊(50 : ℚ) / p⌋⟩ :: execGo existing price rest

/-- Model of `execute_trades`: restrict to rows with `score >= 6`, then
run the buy loop against the set of already-held symbols fetched once at
the start of the run. -/
def execute_trades (scored : List (Row × Int)) (existing : List String)
    (price : String → Option ℚ) : List Buy :=
  execGo existing price (scored.filter (fun rs => decide (6 ≤ rs.2)))

/-- Broker position snapshot as read by `trailing_stop_and_sell`:
`pos.symbol`, `float(pos.qty)`, `float(pos.current_price)`,
`float(pos.avg_entry_price)`. -/
structure Position where
  symbol : String
  qty : ℚ
  current_price : ℚ
  avg_entry_price : ℚ
deriving DecidableEq

/-- One element of `eval_rows` in `trailing_stop_and_sell`. -/
structure EvalRow where
  symbol : String
  qty : ℚ
  current : ℚ
  cost : ℚ
  highest : ℚ
  drop_pct : ℚ
  pl_pct : ℚ
deriving DecidableEq

/-- Persisted trailing data: the `trailing_sl.json` mapping from symbol
to its `highest` watermark, in insertion order like a Python dict. -/
abbrev WM := List (String × ℚ)

/-- Lookup in the watermark mapping, `trailing_data.get(symbol, {}).get("highest", ...)`
returning `none` when the symbol has no entry. -/
def wmLookup : WM → String → Option ℚ
  | [], _ => none
  | (s, v) :: rest, sym => if s = sym then some v else wmLookup rest sym

/-- Python dict assignment `trailing_data[symbol] = {"highest": h}`:
replace the existing entry in place, or append a new one. -/
def wmInsert : WM → String → ℚ → WM
  | [], sym, v => [(sym, v)]
  | (s, w) :: rest, sym, v =>
    if s = sym then (s, v) :: rest else (s, w) :: wmInsert rest sym v

/-- `TRAIL_PERCENT = 0.08`. -/
def TRAIL_PERCENT : ℚ := 8 / 100

/-- `TOP_LOSERS_TO_SELL = 3`. -/
def TOP_LOSERS_TO_SELL : Nat := 3

/-- Per-position loop of `trailing_stop_and_sell`: thread the trailing
data through the positions, building `eval_rows`.  The watermark for the
symbol defaults to `current_price` when absent, is raised to
`current_price` when the current price exceeds it, and is written back
to the dict before the drawdown computation.  `drop_pct` divides by
`highest` with no guard: `highest = 0` raises `ZeroDivisionError`,
modelled as `none`.  `pl_pct` is guarded by `if cost_basis > 0 else 0`.
`mkRow p h` is the `eval_rows` entry appended for position `p` whose
updated watermark is `h`. -/
def mkRow (p : Position) (h : ℚ) : EvalRow :=
  ⟨p.symbol, p.qty, p.current_price, p.avg_entry_price, h,
    (h - p.current_price) / h,
    if 0 < p.avg_entry_price
      then (p.current_price - p.avg_entry_price) / p.avg_entry_price
      else 0⟩

/-- Updated watermark for one position: default to `current_price` when
the symbol has no entry, then raise when `current_price > highest`. -/
def newHighest (wm : WM) (p : Position) : ℚ :=
  let h0 := (wmLookup wm p.symbol).getD p.current_price
  if h0 < p.current_price then p.current_price else h0

def evalPositions : WM → List Position → Option (WM × List EvalRow)
  | wm, [] => some (wm, [])
  | wm, p :: ps =>
    let h := newHighest wm p
    if h = 0 then none
    else
      (evalPositions (wmInsert wm p.symbol h) ps).map
        (fun wr => (wr.1, mkRow p h :: wr.2))

/-- Ascending-by-`pl_pct` comparison of
`sorted(violators, key=lambda x: x["pl_pct"])`. -/
def plLE (a b : EvalRow) : Prop := a.pl_pct ≤ b.pl_pct

instance : DecidableRel plLE :=
  fun a b => inferInstanceAs (Decidable (a.pl_pct ≤ b.pl_pct))

instance : IsTotal EvalRow plLE :=
  ⟨fun a b => le_total a.pl_pct b.pl_pct⟩

instance : IsTrans EvalRow plLE :=
  ⟨fun _ _ _ => le_trans⟩

/-- Observable outcome of one `trailing_stop_and_sell` run: the
states passed to `save_trailing_data` in order, the `eval_rows`, the
rows for which a sell order was submitted (`to_sell`), and the subset of
those whose submission did not raise. -/
structure RunTrace where
  saves : List WM
  rows : List EvalRow
  sellAttempts : List EvalRow
  executedSells : List EvalRow
deriving DecidableEq

/-- Model of `trailing_stop_and_sell`.  With no open positions the
function returns before touching or saving the trailing data.  Otherwise
the per-position loop runs (`none` propagates an uncaught
`ZeroDivisionError`, which skips the save), the updated trailing data is
saved once, violators (`drop_pct >= TRAIL_PERCENT`) are selected, and if
any exist the worst `TOP_LOSERS_TO_SELL` by ascending `pl_pct` (Python
`sorted` is stable) are submitted as sells; `sellOk` tells which
submissions succeed, a failed one only skips its logging.
`runTraceOf` builds the trace from the loop's outcome: violator
selection, the stable sort by ascending `pl_pct`, and the
`TOP_LOSERS_TO_SELL` cap. -/
def runTraceOf (sellOk : String → Bool) (wr : WM × List EvalRow) : RunTrace :=
  let violators := wr.2.filter (fun r => decide (TRAIL_PERCENT ≤ r.drop_pct))
  if violators.isEmpty then ⟨[wr.1], wr.2, [], []⟩
  else
    let toSell := (List.insertionSort plLE violators).take TOP_LOSERS_TO_SELL
    ⟨[wr.1], wr.2, toSell, toSell.filter (fun r => sellOk r.symbol)⟩

def trailing_stop_and_sell (wm : WM) (positions : List Position)
    (sellOk : String → Bool) : Option RunTrace :=
  if positions.isEmpty then some ⟨[], [], [], []⟩
  else (evalPositions wm positions).map (runTraceOf sellOk)

/-! ### Helper lemmas -/

/-- The updated watermark is never below the current price. -/
lemma le_newHighest (wm : WM) (p : Position) :
    p.current_price ≤ newHighest wm p := by
  unfold newHighest
  by_cases hlt : (wmLookup wm p.symbol).getD p.current_price < p.current_price
  · simp [hlt]
  · simp only [if_neg hlt]
    exact le_of_not_lt hlt

/-- `newHighest` when the symbol has a stored watermark. -/
lemma newHighest_of_lookup {wm : WM} {p : Position} {w : ℚ}
    (hw : wmLookup wm p.symbol = some w) :
    newHighest wm p = if w < p.current_price then p.current_price else w := by
  unfold newHighest
  rw [hw, Option.getD_some]

/-- `newHighest` seeds at the current price when the symbol has no
stored watermark. -/
lemma newHighest_of_none {wm : WM} {p : Position}
    (hw : wmLookup wm p.symbol = none) :
    newHighest wm p = p.current_price := by
  unfold newHighest
  rw [hw, Option.getD_none, if_neg (lt_irrefl _)]

/-- The updated watermark is never below the stored watermark. -/
lemma stored_le_newHighest (wm : WM) (p : Position) (w : ℚ)
    (hw : wmLookup wm p.symbol = some w) : w ≤ newHighest wm p := by
  rw [newHighest_of_lookup hw]
  by_cases hlt : w < p.current_price
  · rw [if_pos hlt]; exact le_of_lt hlt
  · rw [if_neg hlt]

/-- Stability of a stable sort, filter form: the subsequence of elements
at any fixed key is untouched by the sort when all pairs inside it are
related. -/
lemma filter_insertionSort_eq {α : Type} (r : α → α → Prop) [DecidableRel r]
    [IsTotal α r] [IsTrans α r] (l : List α) (p : α → Bool)
    (hp : ∀ a b, p a = true → p b = true → r a b) :
    (List.insertionSort r l).filter p = l.filter p := by
  have hpyes : ∀ a ∈ l.filter p, p a = true := fun a ha => List.of_mem_filter ha
  have h1 : (l.filter p).Pairwise r :=
    List.pairwise_of_forall_mem_list fun a ha b hb => hp a b (hpyes a ha) (hpyes b hb)
  have h3 : List.Sublist (l.filter p) (List.insertionSort r l) :=
    List.sublist_insertionSort h1 (List.filter_sublist l)
  have h4 : List.Sublist (l.filter p) ((List.insertionSort r l).filter p) := by
    have := h3.filter p
    rwa [List.filter_eq_self.mpr hpyes] at this
  have h5 : ((List.insertionSort r l).filter p).length = (l.filter p).length :=
    ((List.perm_insertionSort r l).filter p).length_eq
  exact (h4.eq_of_length h5.symm).symm

/-- Effect of a Python dict assignment on later lookups. -/
lemma wmLookup_wmInsert (wm : WM) (s t : String) (v : ℚ) :
    wmLookup (wmInsert wm s v) t = if s = t then some v else wmLookup wm t := by
  induction wm with
  | nil =>
    by_cases h : s = t <;> simp [wmInsert, wmLookup, h]
  | cons e rest ih =>
    obtain ⟨s', w⟩ := e
    by_cases h1 : s' = s
    · subst h1
      by_cases h2 : s' = t <;> simp [wmInsert, wmLookup, h2]
    · by_cases h2 : s' = t
      · subst h2
        have hst : ¬ s = s' := fun h => h1 h.symm
        simp [wmInsert, wmLookup, h1, hst]
      · simp [wmInsert, wmLookup, h1, h2, ih]

/-- The eval rows are in bijection with the positions: same symbols in
the same order. -/
lemma evalPositions_cons_inv {wm : WM} {p : Position} {ps : List Position}
    {wmF : WM} {rows : List EvalRow}
    (h : evalPositions wm (p :: ps) = some (wmF, rows)) :
    newHighest wm p ≠ 0 ∧ ∃ rest,
      evalPositions (wmInsert wm p.symbol (newHighest wm p)) ps = some (wmF, rest)
      ∧ rows = mkRow p (newHighest wm p) :: rest := by
  rw [evalPositions] at h
  by_cases h0 : newHighest wm p = 0
  · rw [if_pos h0] at h; exact absurd h (by simp)
  · rw [if_neg h0, Option.map_eq_some'] at h
    obtain ⟨⟨wmF', rest⟩, heq, hf⟩ := h
    simp only [Prod.mk.injEq] at hf
    exact ⟨h0, rest, by rw [heq, hf.1], hf.2.symm⟩

/-- The eval rows are in bijection with the positions: same symbols in
the same order. -/
lemma evalPositions_symbols : ∀ (wm : WM) (ps : List Position) (wmF : WM)
    (rows : List EvalRow), evalPositions wm ps = some (wmF, rows) →
    rows.map EvalRow.symbol = ps.map Position.symbol := by
  intro wm ps
  induction ps generalizing wm with
  | nil =>
    intro wmF rows h
    simp only [evalPositions, Option.some.injEq, Prod.mk.injEq] at h
    simp [← h.2]
  | cons p ps ih =>
    intro wmF rows h
    obtain ⟨-, rest, heq, hrows⟩ := evalPositions_cons_inv h
    subst hrows
    simp only [List.map_cons, mkRow]
    rw [ih _ _ _ heq]

/-- Symbols not held as positions keep their watermark entry untouched
by the evaluation loop. -/
lemma evalPositions_lookup_preserve : ∀ (wm : WM) (ps : List Position) (wmF : WM)
    (rows : List EvalRow) (s : String), evalPositions wm ps = some (wmF, rows) →
    s ∉ ps.map Position.symbol → wmLookup wmF s = wmLookup wm s := by
  intro wm ps
  induction ps generalizing wm with
  | nil =>
    intro wmF rows s h _
    simp only [evalPositions, Option.some.injEq, Prod.mk.injEq] at h
    rw [← h.1]
  | cons p ps ih =>
    intro wmF rows s h hs
    obtain ⟨-, rest, heq, -⟩ := evalPositions_cons_inv h
    simp only [List.map_cons, List.mem_cons, not_or] at hs
    rw [ih _ _ _ _ heq hs.2, wmLookup_wmInsert, if_neg (fun he => hs.1 he.symm)]

/-- With every position priced positively, the evaluation loop cannot
raise: the updated watermark of each position is at least its (positive)
current price, so no division by zero occurs. -/
lemma evalPositions_pos : ∀ (wm : WM) (ps : List Position),
    (∀ p ∈ ps, 0 < p.current_price) →
    ∃ wmF rows, evalPositions wm ps = some (wmF, rows) := by
  intro wm ps
  induction ps generalizing wm with
  | nil => exact fun _ => ⟨wm, [], rfl⟩
  | cons p ps ih =>
    intro hpos
    have hppos : 0 < p.current_price := hpos p (List.mem_cons_self p ps)
    have hne : newHighest wm p ≠ 0 :=
      ne_of_gt (lt_of_lt_of_le hppos (le_newHighest wm p))
    obtain ⟨wmF, rows, heq⟩ :=
      ih (wmInsert wm p.symbol (newHighest wm p))
        (fun q hq => hpos q (List.mem_cons_of_mem p hq))
    exact ⟨wmF, mkRow p (newHighest wm p) :: rows, by
      rw [evalPositions, if_neg hne, heq, Option.map_some']⟩

/-- Monotonicity of the watermark through one evaluation loop: a stored
entry is never decreased. -/
lemma evalPositions_mono : ∀ (wm : WM) (ps : List Position) (wmF : WM)
    (rows : List EvalRow) (s : String) (w : ℚ),
    evalPositions wm ps = some (wmF, rows) → wmLookup wm s = some w →
    ∃ w2, wmLookup wmF s = some w2 ∧ w ≤ w2 := by
  intro wm ps
  induction ps generalizing wm with
  | nil =>
    intro wmF rows s w h hw
    simp only [evalPositions, Option.some.injEq, Prod.mk.injEq] at h
    exact ⟨w, by rw [← h.1]; exact hw, le_refl w⟩
  | cons p ps ih =>
    intro wmF rows s w h hw
    obtain ⟨-, rest, heq, -⟩ := evalPositions_cons_inv h
    by_cases hsym : p.symbol = s
    · subst hsym
      have h1 : wmLookup (wmInsert wm p.symbol (newHighest wm p)) p.symbol
          = some (newHighest wm p) := by
        rw [wmLookup_wmInsert, if_pos rfl]
      obtain ⟨w2, hw2, hle⟩ := ih _ _ _ _ _ heq h1
      exact ⟨w2, hw2, le_trans (stored_le_newHighest wm p w hw) hle⟩
    · have h1 : wmLookup (wmInsert wm p.symbol (newHighest wm p)) s = some w := by
        rw [wmLookup_wmInsert, if_neg hsym]; exact hw
      exact ih _ _ _ _ _ heq h1

/-- A stored watermark that no position price exceeds is left exactly
unchanged by the evaluation loop. -/
lemma evalPositions_unchanged : ∀ (wm : WM) (ps : List Position) (wmF : WM)
    (rows : List EvalRow) (s : String) (w : ℚ),
    evalPositions wm ps = some (wmF, rows) → wmLookup wm s = some w →
    (∀ p ∈ ps, p.symbol = s → p.current_price ≤ w) →
    wmLookup wmF s = some w := by
  intro wm ps
  induction ps generalizing wm with
  | nil =>
    intro wmF rows s w h hw _
    simp only [evalPositions, Option.some.injEq, Prod.mk.injEq] at h
    rw [← h.1]; exact hw
  | cons p ps ih =>
    intro wmF rows s w h hw hle
    obtain ⟨-, rest, heq, -⟩ := evalPositions_cons_inv h
    by_cases hsym : p.symbol = s
    · have hwp : wmLookup wm p.symbol = some w := by rw [hsym]; exact hw
      have hcur : p.current_price ≤ w := hle p (List.mem_cons_self p ps) hsym
      have hnh : newHighest wm p = w := by
        rw [newHighest_of_lookup hwp, if_neg (not_lt.mpr hcur)]
      have h1 : wmLookup (wmInsert wm p.symbol (newHighest wm p)) s = some w := by
        rw [wmLookup_wmInsert, if_pos hsym, hnh]
      exact ih _ _ _ _ _ heq h1 (fun q hq => hle q (List.mem_cons_of_mem p hq))
    · have h1 : wmLookup (wmInsert wm p.symbol (newHighest wm p)) s = some w := by
        rw [wmLookup_wmInsert, if_neg hsym]; exact hw
      exact ih _ _ _ _ _ heq h1 (fun q hq => hle q (List.mem_cons_of_mem p hq))

/-- Every eval row's watermark was raised at least to the current price
before the drawdown was computed. -/
lemma evalPositions_rows_le : ∀ (wm : WM) (ps : List Position) (wmF : WM)
    (rows : List EvalRow), evalPositions wm ps = some (wmF, rows) →
    ∀ row ∈ rows, row.current ≤ row.highest := by
  intro wm ps
  induction ps generalizing wm with
  | nil =>
    intro wmF rows h
    simp only [evalPositions, Option.some.injEq, Prod.mk.injEq] at h
    rw [← h.2]
    intro row hrow
    exact absurd hrow (List.not_mem_nil row)
  | cons p ps ih =>
    intro wmF rows h
    obtain ⟨-, rest, heq, hrows⟩ := evalPositions_cons_inv h
    subst hrows
    intro row hrow
    rcases List.mem_cons.mp hrow with hhead | htail
    · subst hhead
      exact le_newHighest wm p
    · exact ih _ _ _ heq row htail

/-- Shape of every eval row: the drawdown is the unguarded
`(highest - current) / highest` and the P/L is the guarded
`(current - cost) / cost`. -/
lemma evalPositions_rows_form : ∀ (wm : WM) (ps : List Position) (wmF : WM)
    (rows : List EvalRow), evalPositions wm ps = some (wmF, rows) →
    ∀ row ∈ rows,
      row.drop_pct = (row.highest - row.current) / row.highest
      ∧ row.pl_pct = (if 0 < row.cost then (row.current - row.cost) / row.cost else 0) := by
  intro wm ps
  induction ps generalizing wm with
  | nil =>
    intro wmF rows h
    simp only [evalPositions, Option.some.injEq, Prod.mk.injEq] at h
    rw [← h.2]
    intro row hrow
    exact absurd hrow (List.not_mem_nil row)
  | cons p ps ih =>
    intro wmF rows h
    obtain ⟨-, rest, heq, hrows⟩ := evalPositions_cons_inv h
    subst hrows
    intro row hrow
    rcases List.mem_cons.mp hrow with hhead | htail
    · subst hhead
      exact ⟨rfl, rfl⟩
    · exact ih _ _ _ heq row htail

/-- With positive position prices, every eval row's watermark is
positive (no division by zero in the drawdown). -/
lemma evalPositions_rows_pos : ∀ (wm : WM) (ps : List Position) (wmF : WM)
    (rows : List EvalRow), evalPositions wm ps = some (wmF, rows) →
    (∀ p ∈ ps, 0 < p.current_price) →
    ∀ row ∈ rows, 0 < row.highest := by
  intro wm ps
  induction ps generalizing wm with
  | nil =>
    intro wmF rows h _
    simp only [evalPositions, Option.some.injEq, Prod.mk.injEq] at h
    rw [← h.2]
    intro row hrow
    exact absurd hrow (List.not_mem_nil row)
  | cons p ps ih =>
    intro wmF rows h hpos
    obtain ⟨-, rest, heq, hrows⟩ := evalPositions_cons_inv h
    subst hrows
    intro row hrow
    rcases List.mem_cons.mp hrow with hhead | htail
    · subst hhead
      exact lt_of_lt_of_le (hpos p (List.mem_cons_self p ps)) (le_newHighest wm p)
    · exact ih _ _ _ heq (fun q hq => hpos q (List.mem_cons_of_mem p hq)) row htail

/-- A position whose symbol has no stored watermark is seeded at its
current price: its eval row records `highest = current_price` and zero
drawdown, every row carrying that symbol has zero drawdown, and the
final mapping stores exactly the current price for it. -/
lemma evalPositions_seed : ∀ (wm : WM) (ps : List Position) (wmF : WM)
    (rows : List EvalRow) (p : Position),
    evalPositions wm ps = some (wmF, rows) →
    (ps.map Position.symbol).Nodup →
    p ∈ ps →
    wmLookup wm p.symbol = none →
    (∃ row ∈ rows, row.symbol = p.symbol
        ∧ row.highest = p.current_price ∧ row.drop_pct = 0)
    ∧ (∀ row ∈ rows, row.symbol = p.symbol → row.drop_pct = 0)
    ∧ wmLookup wmF p.symbol = some p.current_price := by
  intro wm ps
  induction ps generalizing wm with
  | nil =>
    intro wmF rows p _ _ hp _
    exact absurd hp (List.not_mem_nil p)
  | cons q qs ih =>
    intro wmF rows p h hnd hp hnew
    obtain ⟨-, rest, heq, hrows⟩ := evalPositions_cons_inv h
    subst hrows
    rw [List.map_cons] at hnd
    obtain ⟨hq1, hq2⟩ := List.nodup_cons.mp hnd
    rcases List.mem_cons.mp hp with hhead | htail
    · subst hhead
      have hnh : newHighest wm p = p.current_price := newHighest_of_none hnew
      have hdrop : (mkRow p (newHighest wm p)).drop_pct = 0 := by
        simp only [mkRow, hnh, sub_self, zero_div]
      have hsym : rest.map EvalRow.symbol = qs.map Position.symbol :=
        evalPositions_symbols _ _ _ _ heq
      refine ⟨⟨mkRow p (newHighest wm p), List.mem_cons_self _ _, rfl, by
          simp only [mkRow, hnh], hdrop⟩, ?_, ?_⟩
      · intro row hrow hrsym
        rcases List.mem_cons.mp hrow with hh | ht
        · rw [hh]; exact hdrop
        · have hmem : row.symbol ∈ rest.map EvalRow.symbol :=
            List.mem_map_of_mem _ ht
          rw [hsym, hrsym] at hmem
          exact absurd hmem hq1
      · have hpre : wmLookup wmF p.symbol
            = wmLookup (wmInsert wm p.symbol (newHighest wm p)) p.symbol :=
          evalPositions_lookup_preserve _ _ _ _ _ heq hq1
        rw [hpre, wmLookup_wmInsert, if_pos rfl, hnh]
    · have hsne : q.symbol ≠ p.symbol := by
        intro he
        exact hq1 (he ▸ List.mem_map_of_mem Position.symbol htail)
      have h1 : wmLookup (wmInsert wm q.symbol (newHighest wm q)) p.symbol = none := by
        rw [wmLookup_wmInsert, if_neg hsne]; exact hnew
      obtain ⟨⟨row, hrow, hprops⟩, hall, hfin⟩ := ih _ _ _ _ heq hq2 htail h1
      refine ⟨⟨row, List.mem_cons_of_mem _ hrow, hprops⟩, ?_, hfin⟩
      intro row2 hrow2 hrsym
      rcases List.mem_cons.mp hrow2 with hh | ht
      · rw [hh] at hrsym
        exact absurd hrsym hsne
      · exact hall row2 ht hrsym

/-- Inversion of one non-trivial `trailing_stop_and_sell` run: the trace
components in terms of the evaluation loop. -/
lemma trailing_stop_inv {wm : WM} {ps : List Position} {sellOk : String → Bool}
    {t : RunTrace} (hne : ps ≠ [])
    (h : trailing_stop_and_sell wm ps sellOk = some t) :
    ∃ wmF rows, evalPositions wm ps = some (wmF, rows)
      ∧ t.rows = rows ∧ t.saves = [wmF]
      ∧ t.sellAttempts = (List.insertionSort plLE
          (rows.filter (fun r => decide (TRAIL_PERCENT ≤ r.drop_pct)))).take
            TOP_LOSERS_TO_SELL
      ∧ t.executedSells = t.sellAttempts.filter (fun r => sellOk r.symbol) := by
  obtain ⟨q, qs, rfl⟩ := List.exists_cons_of_ne_nil hne
  rw [trailing_stop_and_sell] at h
  simp only [List.isEmpty_cons, Bool.false_eq_true, if_false,
    Option.map_eq_some'] at h
  obtain ⟨⟨wmF, rows⟩, heq, hf⟩ := h
  refine ⟨wmF, rows, heq, ?_⟩
  rw [← hf]
  unfold runTraceOf
  by_cases hv : (rows.filter (fun r => decide (TRAIL_PERCENT ≤ r.drop_pct))).isEmpty
  · have hvnil : rows.filter (fun r => decide (TRAIL_PERCENT ≤ r.drop_pct)) = [] :=
      List.isEmpty_iff.mp hv
    simp [hv, hvnil]
  · simp [hv]

/-- Buys emitted by the loop body always have a non-held symbol. -/
lemma execGo_not_held : ∀ (l : List (Row × Int)) (existing : List String)
    (price : String → Option ℚ) (b : Buy),
    b ∈ execGo existing price l → b.symbol ∉ existing := by
  intro l existing price
  induction l with
  | nil =>
    intro b hb
    exact absurd hb (List.not_mem_nil b)
  | cons rs rest ih =>
    intro b hb
    obtain ⟨r, s⟩ := rs
    rw [execGo] at hb
    by_cases h1 : r.ticker = ""
    · rw [if_pos h1] at hb; exact ih b hb
    · rw [if_neg h1] at hb
      by_cases h2 : r.ticker ∈ existing
      · rw [if_pos h2] at hb; exact ih b hb
      · rw [if_neg h2] at hb
        cases hp : price r.ticker with
        | none => simp only [hp] at hb; exact ih b hb
        | some p =>
          simp only [hp] at hb
          by_cases h3 : p ≤ 0
          · rw [if_pos h3] at hb; exact ih b hb
          · rw [if_neg h3] at hb
            rcases List.mem_cons.mp hb with hhead | htail
            · rw [hhead]; exact h2
            · exact ih b htail

/-! ### Claim theorems -/

/-- Claim C1, counterexample: two records with equal scores come out of
`score_trades` in reversed input order, not input order — pandas
`sort_values(ascending=False)` reverses the ascending argsort, so the
descending sort is not stable. -/
theorem C1_counterexample :
    score_trades ⟨false, false, [⟨"A", "Buy", none, none⟩, ⟨"B", "Buy", none, none⟩]⟩
      = [(⟨"B", "Buy", none, none⟩, 3), (⟨"A", "Buy", none, none⟩, 3)]
    ∧ score_trades ⟨false, false, [⟨"A", "Buy", none, none⟩, ⟨"B", "Buy", none, none⟩]⟩
      ≠ [(⟨"A", "Buy", none, none⟩, 3), (⟨"B", "Buy", none, none⟩, 3)] := by
  with_unfolding_all decide

/-- Claim C1, amended: for every input frame, the Scoring Engine output
is the input records annotated with their scores, as a permutation,
sorted descending by score; equal-score records are however not kept in
input order (see the counterexample — the descending sort reverses the
order of ties). -/
theorem C1_theorem (f : Frame) :
    (score_trades f).Perm
      (f.rows.map (fun r => (r, rowScore f.hasTradeSize f.hasExcessReturn r)))
    ∧ List.Pairwise (fun a b : Row × Int => b.2 ≤ a.2) (score_trades f) := by
  constructor
  · exact (List.reverse_perm _).trans (List.perm_insertionSort _ _)
  · unfold score_trades
    rw [List.pairwise_reverse]
    exact List.sorted_insertionSort scoreLE _

/-- Claim C5, counterexample: a `Buy` record whose `Trade_Size_USD`
cell is malformed (coerced to NaN, filled with 0) scores `1 + 2 + 0 + 1
= 4`, not the `0 + 2 + 0 + 1 = 3` that a zero contribution for the
malformed field would give: the coerced 0 falls into the lowest trade
size tier, contributing 1. -/
theorem C5_counterexample :
    rowScore true true ⟨"AAPL", "BUY", none, none⟩ = 4
    ∧ rowScore true true ⟨"AAPL", "BUY", none, none⟩ ≠ 3 := by
  with_unfolding_all decide

/-- Claim C5, amended: the score is the sum of the four independent
additive rules (trade-size tier 3/2/1, direction +2/−2/0, excess-return
tier +2/+1/0, flat +1); an absent column contributes zero, a missing or
malformed direction or excess-return cell contributes zero, but a
missing or malformed trade-size cell in a present column coerces to 0
and contributes the lowest tier +1.  A Buy record with trade size
150000 and excess return 0.1 scores exactly 8. -/
theorem C5_theorem :
    (∀ (hTS hER : Bool) (r : Row),
      rowScore hTS hER r
        = (if hTS then
             (if 100000 ≤ r.trade_size.getD 0 then 3
              else if 25000 ≤ r.trade_size.getD 0 then 2 else 1)
           else 0)
          + (if r.transaction.toUpper = "BUY" then 2
             else if r.transaction.toUpper = "SELL" then -2 else 0)
          + (if hER then
              (if 5/100 < r.excess_return.getD 0 then 2
               else if 0 < r.excess_return.getD 0 then 1 else 0)
             else 0)
          + 1)
    ∧ rowScore true true ⟨"AAPL", "Buy", some 150000, some (1/10)⟩ = 8
    ∧ rowScore true true ⟨"AAPL", "Buy", none, some (1/10)⟩ = 6 := by
  refine ⟨fun hTS hER r => rfl, ?_, ?_⟩ <;> with_unfolding_all decide

/-- Claim C8, confirmed: a record whose `Traded` date fails to parse is
never in the normalizer output regardless of its other fields, and the
30-day cutoff is inclusive: a record dated 30 days + 1 second before
now is excluded, a record dated 29 days before now is included. -/
theorem C8_theorem (now : Int) (f : Feed) (out : List RawRec)
    (hT : f.hasTraded = true)
    (hout : fetch_congress_trades now f = Except.ok out) :
    (∀ r ∈ f.recs, r.traded = none → r ∉ out)
    ∧ (∀ r ∈ f.recs, r.traded = some (now - thirtyDays - 1) → r ∉ out)
    ∧ (∀ r ∈ f.recs, r.traded = some (now - 29 * 86400) → r ∈ out) := by
  rw [fetch_congress_trades, if_pos hT] at hout
  have hout2 : out = f.recs.filter (fun r =>
      match r.traded with
      | none => false
      | some d => decide (now - thirtyDays ≤ d)) := (Except.ok.inj hout).symm
  subst hout2
  refine ⟨?_, ?_, ?_⟩
  · intro r _ htr hmem
    have := (List.mem_filter.mp hmem).2
    rw [htr] at this
    exact absurd this (by simp)
  · intro r _ htr hmem
    have := (List.mem_filter.mp hmem).2
    rw [htr] at this
    simp only [decide_eq_true_eq] at this
    omega
  · intro r hr htr
    refine List.mem_filter.mpr ⟨hr, ?_⟩
    rw [htr]
    simp only [decide_eq_true_eq]
    unfold thirtyDays
    omega

/-- Witness for C8 at `now = 0`: an unparseable-date record and a
30-days-1-second-old record are dropped, a 29-days-old record is kept. -/
theorem C8_witness :
    (⟨"A", "Buy", none, none, none⟩ : RawRec)
        ∉ [(⟨"C", "Buy", some (-2505600), none, none⟩ : RawRec)]
    ∧ (⟨"B", "Buy", some (-2592001), none, none⟩ : RawRec)
        ∉ [(⟨"C", "Buy", some (-2505600), none, none⟩ : RawRec)]
    ∧ (⟨"C", "Buy", some (-2505600), none, none⟩ : RawRec)
        ∈ [(⟨"C", "Buy", some (-2505600), none, none⟩ : RawRec)] := by
  have h := C8_theorem 0
    ⟨true, false, [⟨"A", "Buy", none, none, none⟩,
      ⟨"B", "Buy", some (-2592001), none, none⟩,
      ⟨"C", "Buy", some (-2505600), none, none⟩]⟩
    [⟨"C", "Buy", some (-2505600), none, none⟩] rfl
    (by with_unfolding_all rfl)
  exact ⟨h.1 _ (List.mem_cons_self _ _) rfl,
    h.2.1 _ (List.mem_cons_of_mem _ (List.mem_cons_self _ _)) (by decide),
    h.2.2 _ (List.mem_cons_of_mem _ (List.mem_cons_of_mem _ (List.mem_cons_self _ _)))
      (by decide)⟩

/-- Claim C9, counterexample: a `Date`-keyed feed (no `Traded` column)
is not accepted — `fetch_congress_trades` raises `KeyError` instead of
normalizing it. -/
theorem C9_counterexample :
    fetch_congress_trades 0 ⟨false, true, [⟨"A", "Buy", some 0, none, none⟩]⟩
      = Except.error "KeyError: expected column Traded not found" := rfl

/-- Claim C9, amended: the normalizer accepts only the `Traded`-keyed
schema shape; for such feeds no exception propagates (invalid dates are
filtered, never raised), while a feed without a `Traded` column raises
a fatal `KeyError`. -/
theorem C9_theorem (now : Int) (f : Feed) :
    (f.hasTraded = true → ∃ out, fetch_congress_trades now f = Except.ok out)
    ∧ (f.hasTraded = false →
        fetch_congress_trades now f
          = Except.error "KeyError: expected column Traded not found") := by
  constructor
  · intro hT
    exact ⟨_, by rw [fetch_congress_trades, if_pos hT]⟩
  · intro hF
    rw [fetch_congress_trades, if_neg (by simp [hF])]

/-- Witness for C9: a `Traded`-keyed feed normalizes, a `Date`-keyed
feed errors. -/
theorem C9_witness :
    (∃ out, fetch_congress_trades 0 ⟨true, false, []⟩ = Except.ok out)
    ∧ fetch_congress_trades 0 ⟨false, true, []⟩
        = Except.error "KeyError: expected column Traded not found" :=
  ⟨(C9_theorem 0 ⟨true, false, []⟩).1 rfl, (C9_theorem 0 ⟨false, true, []⟩).2 rfl⟩

/-- Claim C2, counterexample: a symbol occurring in two candidate
records above the threshold is bought twice in one run — the held set
is fetched once and never updated after a buy, so the Trade Selector
does emit two buy instructions for the same symbol. -/
theorem C2_counterexample :
    execute_trades
        [(⟨"AAPL", "Buy", none, none⟩, 6), (⟨"AAPL", "Buy", none, none⟩, 7)] []
        (fun s => if s = "AAPL" then some 10 else none)
      = [⟨"AAPL", 5⟩, ⟨"AAPL", 5⟩]
    ∧ ¬ List.Pairwise (fun a b : Buy => a.symbol ≠ b.symbol)
        (execute_trades
          [(⟨"AAPL", "Buy", none, none⟩, 6), (⟨"AAPL", "Buy", none, none⟩, 7)] []
          (fun s => if s = "AAPL" then some 10 else none)) := by
  with_unfolding_all decide

/-- Claim C2, amended: the Trade Selector never emits a buy instruction
for a symbol in the already-held set fetched at the start of the run;
it can however emit two buys for the same symbol when that symbol
occurs in multiple candidate records (see the counterexample). -/
theorem C2_theorem (scored : List (Row × Int)) (existing : List String)
    (price : String → Option ℚ) (b : Buy)
    (hb : b ∈ execute_trades scored existing price) :
    b.symbol ∉ existing :=
  execGo_not_held _ existing price b hb

/-- Witness for C2: a concrete emitted buy is not in the held set. -/
theorem C2_witness :
    (⟨"AAPL", 5⟩ : Buy).symbol ∉ ["MSFT"] :=
  C2_theorem [(⟨"AAPL", "Buy", none, none⟩, 6)] ["MSFT"]
    (fun s => if s = "AAPL" then some 10 else none) ⟨"AAPL", 5⟩
    (by with_unfolding_all decide)

/-- Claim C3, confirmed: for a symbol with a stored watermark `w`, one
run never decreases it (it is raised to `current_price` when the
current price exceeds it, before the drawdown is computed — every eval
row has `current ≤ highest`), a run observing only lower prices for the
symbol saves it unchanged, and the saved state is the loop's final
mapping. -/
theorem C3_theorem (wm : WM) (ps : List Position) (sellOk : String → Bool)
    (t : RunTrace) (s : String) (w : ℚ)
    (h : trailing_stop_and_sell wm ps sellOk = some t)
    (hne : ps ≠ [])
    (hw : wmLookup wm s = some w) :
    ∃ wmF, t.saves = [wmF]
      ∧ (∃ w2, wmLookup wmF s = some w2 ∧ w ≤ w2)
      ∧ ((∀ p ∈ ps, p.symbol = s → p.current_price ≤ w) → wmLookup wmF s = some w)
      ∧ (∀ row ∈ t.rows, row.current ≤ row.highest) := by
  obtain ⟨wmF, rows, heq, hr, hs, -, -⟩ := trailing_stop_inv hne h
  refine ⟨wmF, hs, evalPositions_mono _ _ _ _ _ _ heq hw, ?_, ?_⟩
  · exact fun hle => evalPositions_unchanged _ _ _ _ _ _ heq hw hle
  · rw [hr]
    exact evalPositions_rows_le _ _ _ _ heq

/-- Witness for C3: the spec scenario — watermark 5 loaded, current
price 3 observed; the run saves watermark 5 unchanged. -/
theorem C3_witness :
    ∃ wmF, (⟨[[("X", 5)]], [⟨"X", 1, 3, 10, 5, 2/5, -(7/10)⟩],
        [⟨"X", 1, 3, 10, 5, 2/5, -(7/10)⟩],
        [⟨"X", 1, 3, 10, 5, 2/5, -(7/10)⟩]⟩ : RunTrace).saves = [wmF]
      ∧ (∃ w2, wmLookup wmF "X" = some w2 ∧ (5 : ℚ) ≤ w2)
      ∧ ((∀ p ∈ [(⟨"X", 1, 3, 10⟩ : Position)], p.symbol = "X" →
            p.current_price ≤ (5 : ℚ)) → wmLookup wmF "X" = some 5)
      ∧ (∀ row ∈ (⟨[[("X", 5)]], [⟨"X", 1, 3, 10, 5, 2/5, -(7/10)⟩],
          [⟨"X", 1, 3, 10, 5, 2/5, -(7/10)⟩],
          [⟨"X", 1, 3, 10, 5, 2/5, -(7/10)⟩]⟩ : RunTrace).rows,
            row.current ≤ row.highest) :=
  C3_theorem [("X", 5)] [⟨"X", 1, 3, 10⟩] (fun _ => true)
    ⟨[[("X", 5)]], [⟨"X", 1, 3, 10, 5, 2/5, -(7/10)⟩],
      [⟨"X", 1, 3, 10, 5, 2/5, -(7/10)⟩], [⟨"X", 1, 3, 10, 5, 2/5, -(7/10)⟩]⟩
    "X" 5 (by with_unfolding_all decide) (by decide) (by with_unfolding_all decide)

/-- Claim C6, counterexample: a position with `current_price = 0` and
no stored watermark makes `highest = 0`, and the drawdown computation
divides by zero — the run raises `ZeroDivisionError` instead of
treating the drawdown as a defined zero.  The division is not
guarded. -/
theorem C6_counterexample :
    trailing_stop_and_sell [] [⟨"X", 1, 0, 10⟩] (fun _ => true) = none := by
  with_unfolding_all decide

/-- Claim C6, amended: the `pl_fraction` division is guarded (zero when
the cost basis is not positive), but the drawdown division is
unguarded; whenever every position has a positive current price the
watermark is positive, no division by zero occurs, and every eval row
satisfies `drawdown = (highest - current) / highest`. -/
theorem C6_theorem (wm : WM) (ps : List Position)
    (hpos : ∀ p ∈ ps, 0 < p.current_price) :
    ∃ wmF rows, evalPositions wm ps = some (wmF, rows)
      ∧ ∀ row ∈ rows, 0 < row.highest
        ∧ row.drop_pct = (row.highest - row.current) / row.highest
        ∧ row.pl_pct
            = (if 0 < row.cost then (row.current - row.cost) / row.cost else 0) := by
  obtain ⟨wmF, rows, heq⟩ := evalPositions_pos wm ps hpos
  exact ⟨wmF, rows, heq, fun row hrow =>
    ⟨evalPositions_rows_pos _ _ _ _ heq hpos row hrow,
     (evalPositions_rows_form _ _ _ _ heq row hrow).1,
     (evalPositions_rows_form _ _ _ _ heq row hrow).2⟩⟩

/-- Witness for C6: a positively priced position evaluates without
division by zero. -/
theorem C6_witness :
    ∃ wmF rows, evalPositions [] [(⟨"X", 1, 10, 5⟩ : Position)] = some (wmF, rows)
      ∧ ∀ row ∈ rows, 0 < row.highest
        ∧ row.drop_pct = (row.highest - row.current) / row.highest
        ∧ row.pl_pct
            = (if 0 < row.cost then (row.current - row.cost) / row.cost else 0) :=
  C6_theorem [] [⟨"X", 1, 10, 5⟩] (by
    intro p hp
    rw [List.mem_singleton.mp hp]
    with_unfolding_all decide)

/-- Claim C7, counterexample: a run with zero open positions returns
before saving — the watermark state is persisted zero times, not
exactly once. -/
theorem C7_counterexample :
    trailing_stop_and_sell [("A", 5)] [] (fun _ => true) = some ⟨[], [], [], []⟩
    ∧ (⟨[], [], [], []⟩ : RunTrace).saves.length ≠ 1 := by
  with_unfolding_all decide

/-- Claim C7, amended: in every run holding at least one position (and
evaluating without a division error, e.g. all prices positive), the
updated watermark state is saved exactly once — the loop's final
mapping, saved after evaluation — regardless of how many violators or
sells there are and regardless of which sell submissions fail (the save
precedes the sell loop and sell errors are caught per instruction). -/
theorem C7_theorem (wm : WM) (ps : List Position) (sellOk sellOk2 : String → Bool)
    (hne : ps ≠ []) (hpos : ∀ p ∈ ps, 0 < p.current_price) :
    ∃ t, trailing_stop_and_sell wm ps sellOk = some t
      ∧ t.saves.length = 1
      ∧ (∃ wmF rows, evalPositions wm ps = some (wmF, rows) ∧ t.saves = [wmF])
      ∧ (trailing_stop_and_sell wm ps sellOk2).map RunTrace.saves = some t.saves := by
  obtain ⟨wmF, rows, heq⟩ := evalPositions_pos wm ps hpos
  have hsaves : ∀ f : String → Bool, (runTraceOf f (wmF, rows)).saves = [wmF] := by
    intro f
    unfold runTraceOf
    by_cases hv : (rows.filter (fun r => decide (TRAIL_PERCENT ≤ r.drop_pct))).isEmpty
    · simp [hv]
    · simp [hv]
  have hrun : ∀ f : String → Bool,
      trailing_stop_and_sell wm ps f = some (runTraceOf f (wmF, rows)) := by
    intro f
    rw [trailing_stop_and_sell, if_neg (by simp [List.isEmpty_iff, hne]), heq,
      Option.map_some']
  refine ⟨runTraceOf sellOk (wmF, rows), hrun sellOk, ?_, ⟨wmF, rows, heq, hsaves sellOk⟩, ?_⟩
  · rw [hsaves sellOk]
    rfl
  · rw [hrun sellOk2, Option.map_some', hsaves sellOk2, hsaves sellOk]

/-- Witness for C7: a one-position run saves exactly once, also under
an all-failing sell submitter. -/
theorem C7_witness :
    ∃ t, trailing_stop_and_sell [] [(⟨"X", 1, 10, 5⟩ : Position)] (fun _ => true) = some t
      ∧ t.saves.length = 1
      ∧ (∃ wmF rows, evalPositions [] [(⟨"X", 1, 10, 5⟩ : Position)] = some (wmF, rows)
          ∧ t.saves = [wmF])
      ∧ (trailing_stop_and_sell [] [(⟨"X", 1, 10, 5⟩ : Position)]
          (fun _ => false)).map RunTrace.saves = some t.saves :=
  C7_theorem [] [⟨"X", 1, 10, 5⟩] (fun _ => true) (fun _ => false)
    (by decide) (by
      intro p hp
      rw [List.mem_singleton.mp hp]
      with_unfolding_all decide)

/-- Claim C4, confirmed: when more than `TOP_LOSERS_TO_SELL` positions
violate the trailing-stop threshold, exactly `TOP_LOSERS_TO_SELL` sell
instructions are submitted; they are the violators with lowest
`pl_pct`, ranked by a stable ascending sort (ties keep input order:
equal-`pl_pct` subsequences are preserved), and every unselected
violator has `pl_pct` at least that of every selected one. -/
theorem C4_theorem (wm : WM) (ps : List Position) (sellOk : String → Bool)
    (t : RunTrace) (violators : List EvalRow)
    (h : trailing_stop_and_sell wm ps sellOk = some t)
    (hv : violators = t.rows.filter (fun r => decide (TRAIL_PERCENT ≤ r.drop_pct)))
    (hmany : TOP_LOSERS_TO_SELL < violators.length) :
    t.sellAttempts.length = TOP_LOSERS_TO_SELL
    ∧ (∀ x ∈ t.sellAttempts, x ∈ violators)
    ∧ (∃ sorted, violators.Perm sorted
        ∧ List.Pairwise plLE sorted
        ∧ (∀ v : ℚ, sorted.filter (fun r => decide (r.pl_pct = v))
            = violators.filter (fun r => decide (r.pl_pct = v)))
        ∧ t.sellAttempts = sorted.take TOP_LOSERS_TO_SELL
        ∧ ∀ x ∈ t.sellAttempts, ∀ y ∈ sorted.drop TOP_LOSERS_TO_SELL,
            x.pl_pct ≤ y.pl_pct) := by
  have hne : ps ≠ [] := by
    intro hnil
    subst hnil
    have hcomp : trailing_stop_and_sell wm [] sellOk = some ⟨[], [], [], []⟩ := rfl
    rw [hcomp] at h
    have ht := Option.some.inj h
    rw [← ht] at hv
    dsimp only at hv
    simp only [List.filter_nil] at hv
    rw [hv] at hmany
    exact absurd hmany (by decide)
  obtain ⟨wmF, rows, heq, hr, -, hsell, -⟩ := trailing_stop_inv hne h
  rw [← hr] at hsell
  rw [← hv] at hsell
  have hsorted : List.Pairwise plLE (List.insertionSort plLE violators) :=
    List.sorted_insertionSort plLE violators
  have hperm : (List.insertionSort plLE violators).Perm violators :=
    List.perm_insertionSort plLE violators
  have hlen : (List.insertionSort plLE violators).length = violators.length :=
    hperm.length_eq
  refine ⟨?_, ?_, List.insertionSort plLE violators, hperm.symm, hsorted, ?_, hsell, ?_⟩
  · rw [hsell, List.length_take, hlen]
    exact min_eq_left (le_of_lt hmany)
  · intro x hx
    rw [hsell] at hx
    exact hperm.subset (List.mem_of_mem_take hx)
  · intro v
    refine filter_insertionSort_eq plLE violators _ ?_
    intro a b ha hb
    rw [decide_eq_true_eq] at ha hb
    show a.pl_pct ≤ b.pl_pct
    rw [ha, hb]
  · intro x hx y hy
    have hpair : (List.take TOP_LOSERS_TO_SELL (List.insertionSort plLE violators)
        ++ List.drop TOP_LOSERS_TO_SELL (List.insertionSort plLE violators)).Pairwise
          plLE := by
      rw [List.take_append_drop]
      exact hsorted
    rw [hsell] at hx
    exact (List.pairwise_append.mp hpair).2.2 x hx y hy

/-- Witness for C4: four violators, watermarks at 10, currents 9, 8, 7
and 9.1 — the three with lowest P/L (currents 7, 8, 9) are sold, the
fourth is left open. -/
theorem C4_witness :
    (([⟨"C", 1, 7, 10, 10, 3/10, -(3/10)⟩, ⟨"B", 1, 8, 10, 10, 1/5, -(1/5)⟩,
        ⟨"A", 1, 9, 10, 10, 1/10, -(1/10)⟩] : List EvalRow).length = TOP_LOSERS_TO_SELL)
    ∧ (∀ x ∈ ([⟨"C", 1, 7, 10, 10, 3/10, -(3/10)⟩, ⟨"B", 1, 8, 10, 10, 1/5, -(1/5)⟩,
        ⟨"A", 1, 9, 10, 10, 1/10, -(1/10)⟩] : List EvalRow),
        x ∈ ([⟨"A", 1, 9, 10, 10, 1/10, -(1/10)⟩, ⟨"B", 1, 8, 10, 10, 1/5, -(1/5)⟩,
          ⟨"C", 1, 7, 10, 10, 3/10, -(3/10)⟩, ⟨"D", 1, 91/10, 10, 10, 9/100, -(9/100)⟩]
            : List EvalRow))
    ∧ (∃ sorted, ([⟨"A", 1, 9, 10, 10, 1/10, -(1/10)⟩, ⟨"B", 1, 8, 10, 10, 1/5, -(1/5)⟩,
          ⟨"C", 1, 7, 10, 10, 3/10, -(3/10)⟩, ⟨"D", 1, 91/10, 10, 10, 9/100, -(9/100)⟩]
            : List EvalRow).Perm sorted
        ∧ List.Pairwise plLE sorted
        ∧ (∀ v : ℚ, sorted.filter (fun r => decide (r.pl_pct = v))
            = ([⟨"A", 1, 9, 10, 10, 1/10, -(1/10)⟩, ⟨"B", 1, 8, 10, 10, 1/5, -(1/5)⟩,
              ⟨"C", 1, 7, 10, 10, 3/10, -(3/10)⟩,
              ⟨"D", 1, 91/10, 10, 10, 9/100, -(9/100)⟩] : List EvalRow).filter
                (fun r => decide (r.pl_pct = v)))
        ∧ ([⟨"C", 1, 7, 10, 10, 3/10, -(3/10)⟩, ⟨"B", 1, 8, 10, 10, 1/5, -(1/5)⟩,
            ⟨"A", 1, 9, 10, 10, 1/10, -(1/10)⟩] : List EvalRow)
              = sorted.take TOP_LOSERS_TO_SELL
        ∧ ∀ x ∈ ([⟨"C", 1, 7, 10, 10, 3/10, -(3/10)⟩, ⟨"B", 1, 8, 10, 10, 1/5, -(1/5)⟩,
            ⟨"A", 1, 9, 10, 10, 1/10, -(1/10)⟩] : List EvalRow),
            ∀ y ∈ sorted.drop TOP_LOSERS_TO_SELL, x.pl_pct ≤ y.pl_pct) :=
  C4_theorem [("A", 10), ("B", 10), ("C", 10), ("D", 10)]
    [⟨"A", 1, 9, 10⟩, ⟨"B", 1, 8, 10⟩, ⟨"C", 1, 7, 10⟩, ⟨"D", 1, 91/10, 10⟩]
    (fun _ => true)
    ⟨[[("A", 10), ("B", 10), ("C", 10), ("D", 10)]],
      [⟨"A", 1, 9, 10, 10, 1/10, -(1/10)⟩, ⟨"B", 1, 8, 10, 10, 1/5, -(1/5)⟩,
        ⟨"C", 1, 7, 10, 10, 3/10, -(3/10)⟩, ⟨"D", 1, 91/10, 10, 10, 9/100, -(9/100)⟩],
      [⟨"C", 1, 7, 10, 10, 3/10, -(3/10)⟩, ⟨"B", 1, 8, 10, 10, 1/5, -(1/5)⟩,
        ⟨"A", 1, 9, 10, 10, 1/10, -(1/10)⟩],
      [⟨"C", 1, 7, 10, 10, 3/10, -(3/10)⟩, ⟨"B", 1, 8, 10, 10, 1/5, -(1/5)⟩,
        ⟨"A", 1, 9, 10, 10, 1/10, -(1/10)⟩]⟩
    [⟨"A", 1, 9, 10, 10, 1/10, -(1/10)⟩, ⟨"B", 1, 8, 10, 10, 1/5, -(1/5)⟩,
      ⟨"C", 1, 7, 10, 10, 3/10, -(3/10)⟩, ⟨"D", 1, 91/10, 10, 10, 9/100, -(9/100)⟩]
    (by with_unfolding_all decide) (by with_unfolding_all decide) (by decide)

/-- Claim C10, confirmed: a position whose symbol has no entry in the
loaded watermark state is seeded at its current price: its eval row has
`highest = current_price` and zero drawdown, it is never selected for a
trailing-stop sell in that run, and the saved state maps its symbol to
exactly its current price. -/
theorem C10_theorem (wm : WM) (ps : List Position) (sellOk : String → Bool)
    (t : RunTrace) (p : Position)
    (h : trailing_stop_and_sell wm ps sellOk = some t)
    (hnd : (ps.map Position.symbol).Nodup)
    (hp : p ∈ ps)
    (hnew : wmLookup wm p.symbol = none) :
    (∃ row ∈ t.rows, row.symbol = p.symbol
        ∧ row.highest = p.current_price ∧ row.drop_pct = 0)
    ∧ (∀ row ∈ t.sellAttempts, row.symbol ≠ p.symbol)
    ∧ (∃ wmF, t.saves = [wmF] ∧ wmLookup wmF p.symbol = some p.current_price) := by
  have hne : ps ≠ [] := List.ne_nil_of_mem hp
  obtain ⟨wmF, rows, heq, hr, hs, hsell, -⟩ := trailing_stop_inv hne h
  obtain ⟨⟨row, hrow, hprops⟩, hall, hfin⟩ :=
    evalPositions_seed _ _ _ _ _ heq hnd hp hnew
  have htz : ¬ (TRAIL_PERCENT ≤ (0 : ℚ)) := by with_unfolding_all decide
  refine ⟨⟨row, by rw [hr]; exact hrow, hprops⟩, ?_, wmF, hs, hfin⟩
  intro row2 hrow2 hcontra
  rw [hsell, ← hr] at hrow2
  have hmem : row2 ∈ t.rows.filter (fun r => decide (TRAIL_PERCENT ≤ r.drop_pct)) :=
    (List.perm_insertionSort plLE _).subset (List.mem_of_mem_take hrow2)
  obtain ⟨hmem2, hpred⟩ := List.mem_filter.mp hmem
  rw [decide_eq_true_eq] at hpred
  rw [hall row2 (hr ▸ hmem2) hcontra] at hpred
  exact htz hpred

/-- Witness for C10: a first-seen position seeds its watermark at its
current price, shows zero drawdown, and is not sold. -/
theorem C10_witness :
    (∃ row ∈ (⟨[[("X", 10)]], [⟨"X", 1, 10, 5, 10, 0, 1⟩], [], []⟩ : RunTrace).rows,
        row.symbol = "X" ∧ row.highest = (10 : ℚ) ∧ row.drop_pct = 0)
    ∧ (∀ row ∈ (⟨[[("X", 10)]], [⟨"X", 1, 10, 5, 10, 0, 1⟩], [], []⟩ : RunTrace).sellAttempts,
        row.symbol ≠ "X")
    ∧ (∃ wmF, (⟨[[("X", 10)]], [⟨"X", 1, 10, 5, 10, 0, 1⟩], [], []⟩ : RunTrace).saves = [wmF]
        ∧ wmLookup wmF "X" = some 10) :=
  C10_theorem [] [⟨"X", 1, 10, 5⟩] (fun _ => true)
    ⟨[[("X", 10)]], [⟨"X", 1, 10, 5, 10, 0, 1⟩], [], []⟩ ⟨"X", 1, 10, 5⟩
    (by with_unfolding_all decide) (by decide) (List.mem_cons_self _ _) rfl
